import Mathlib

/-!
Verification development for the AccuAnnotate-Web annotation core.

The definitions below are a shallow embedding of the computational core of
the repository: the geometry helpers, hint normalisation and ranking, the
response reconciler, the crop sampler and the OpenAI retry loop from
src/utils/annotator.py, and the batch-job bookkeeping from src/app.py.

Modelling conventions:
* Python dicts become structures; a key that may be absent (dict.get) becomes
  an Option field, with the source's defaults applied at each use site.
* Python floats are modelled by exact unnormalised fractions over Int
  (structure Frac); every denominator constructed by the model is positive, so
  the cross-multiplied comparisons coincide with the rational ones.  The float
  rounding of the source is far below the granularity of any comparison made
  on pixel geometry, so the exact model and the float code agree on every
  branch taken.
* Python integer floor division // is Int.fdiv.
* Python list.sort and sorted are stable; a stable sort for a total key order
  has a unique output, reproduced here by stable insertion sort (sortStable).
* The Mersenne-Twister generator, the MD5 digest and the float square root are
  external to the verified logic and appear as explicit function parameters.
* PIL image handling (pixel data, PNG encoding, resizing) is not modelled; a
  crop is represented by the hint id, the crop kind and the crop rectangle.
-/

namespace AccuAnnotate

/-- Exact unnormalised fraction standing in for a Python float.  All fractions
built by this development keep a positive denominator, making the
cross-multiplied comparisons below exact rational comparisons. -/
structure Frac where
  num : Int
  den : Int
deriving DecidableEq

/-- Strict less-than on fractions with positive denominators. -/
def Frac.blt (a b : Frac) : Bool := decide (a.num * b.den < b.num * a.den)

/-- Less-or-equal on fractions with positive denominators. -/
def Frac.ble (a b : Frac) : Bool := decide (a.num * b.den ≤ b.num * a.den)

/-- Equality test on fractions with positive denominators. -/
def Frac.beq (a b : Frac) : Bool := decide (a.num * b.den = b.num * a.den)

def Frac.add (a b : Frac) : Frac := ⟨a.num * b.den + b.num * a.den, a.den * b.den⟩

def Frac.sub (a b : Frac) : Frac := ⟨a.num * b.den - b.num * a.den, a.den * b.den⟩

def Frac.mul (a b : Frac) : Frac := ⟨a.num * b.num, a.den * b.den⟩

/-- Division, normalising the sign so the denominator stays nonnegative. -/
def Frac.div (a b : Frac) : Frac :=
  if b.num < 0 then ⟨-(a.num * b.den), -(a.den * b.num)⟩ else ⟨a.num * b.den, a.den * b.num⟩

def Frac.fmax (a b : Frac) : Frac := if Frac.ble a b then b else a

def Frac.fmin (a b : Frac) : Frac := if Frac.ble a b then a else b

/-- Axis-aligned integer pixel box; the Python lists [x1, y1, x2, y2]. -/
structure Box where
  x1 : Int
  y1 : Int
  x2 : Int
  y2 : Int
deriving DecidableEq

/-- Mirrors annotator._clamp. -/
def clamp (v lo hi : Int) : Int := max lo (min hi v)

/-- Mirrors annotator._center_of: floor-divided midpoint, clamped one pixel
inside each edge. -/
def centerOf (b : Box) : Int × Int :=
  (clamp ((b.x1 + b.x2).fdiv 2) (b.x1 + 1) (b.x2 - 1),
   clamp ((b.y1 + b.y2).fdiv 2) (b.y1 + 1) (b.y2 - 1))

/-- Mirrors annotator._area. -/
def area (b : Box) : Int := max 0 (b.x2 - b.x1) * max 0 (b.y2 - b.y1)

/-- Intersection area, as computed inside annotator._iou. -/
def interArea (a b : Box) : Int :=
  max 0 (min a.x2 b.x2 - max a.x1 b.x1) * max 0 (min a.y2 b.y2 - max a.y1 b.y1)

/-- Union term of annotator._iou (full signed box areas, no clamping). -/
def unionArea (a b : Box) : Int :=
  (a.x2 - a.x1) * (a.y2 - a.y1) + (b.x2 - b.x1) * (b.y2 - b.y1) - interArea a b

/-- Value of annotator._iou as an exact pair (numerator, positive denominator):
inter / max(union, 1) when the intersection is positive, otherwise 0. -/
def iouPair (a b : Box) : Int × Int :=
  let inter := interArea a b
  if inter ≤ 0 then (0, 1) else (inter, max (unionArea a b) 1)

/-- Decides iou(a, b) > num/den for a positive threshold, by cross
multiplication of the exact value. -/
def iouGtQ (a b : Box) (num den : Int) : Bool :=
  decide (den * (iouPair a b).1 > num * (iouPair a b).2)

/-- Decides that one exact iou value exceeds another. -/
def iouPairGt (p q : Int × Int) : Bool := decide (p.1 * q.2 > q.1 * p.2)

/-- Hint dictionary as passed around the annotator; keys that may be absent are
Option fields, with dict.get defaults applied at each use site as in the
source. -/
structure Hint where
  id : Option Int := none
  bbox : Box
  point : Option (Int × Int) := none
  confidence : Option Frac := none
deriving DecidableEq

instance : Inhabited Hint := ⟨{ bbox := ⟨0, 0, 0, 0⟩ }⟩

/-- Confidence with the 0.5 default used throughout the source. -/
def confOf (h : Hint) : Frac := h.confidence.getD ⟨1, 2⟩

/-- Indexing helper: hints[i] (total, only used at in-range indices). -/
def hintAt (hints : List Hint) (i : Nat) : Hint := (hints[i]?).getD default

/-- Raw detector element before normalisation.  A bbox that fails to parse into
four integers (the try/except in the source) is none; a point that is not a
2-sequence is none; confidence defaults later to 0.5. -/
structure RawElem where
  bbox : Option Box := none
  point : Option (Int × Int) := none
  confidence : Option Frac := none
deriving DecidableEq

/-- Mirrors annotator._normalize_omni_elements: skip unparseable bboxes, skip
degenerate boxes (x2 ≤ x1 or y2 ≤ y1), derive a missing point as the clamped
centre, copy a provided point unchanged, default confidence to 0.5. -/
def normalizeOmniElements (raw : List RawElem) : List Hint :=
  raw.filterMap fun e =>
    match e.bbox with
    | none => none
    | some bb =>
      if bb.x2 ≤ bb.x1 ∨ bb.y2 ≤ bb.y1 then none
      else
        some { bbox := bb
               point := some (e.point.getD (centerOf bb))
               confidence := some (e.confidence.getD ⟨1, 2⟩) }

/-- Stable insertion of a before the first element strictly greater under lt. -/
def insertStable (lt : α → α → Bool) (a : α) : List α → List α
  | [] => [a]
  | b :: t => if lt b a then b :: insertStable lt a t else a :: b :: t

/-- Stable sort by a strict key comparison.  Python list.sort and sorted are
stable, and a stable sort for a total key order has a unique output, so
insertion sort reproduces the source's ordering exactly. -/
def sortStable (lt : α → α → Bool) (l : List α) : List α := l.foldr (insertStable lt) []

/-- Strict order of the first sort in annotator._rank_and_limit_hints:
key (-confidence, area). -/
def confAreaLt (a b : Hint) : Bool :=
  Frac.blt (confOf b) (confOf a) ||
    (Frac.beq (confOf a) (confOf b) && decide (area a.bbox < area b.bbox))

/-- Centre proximity test of the dedup loop: both centre offsets under 4 px. -/
def centersClose (a b : Box) : Bool :=
  decide (|(centerOf a).1 - (centerOf b).1| < 4) && decide (|(centerOf a).2 - (centerOf b).2| < 4)

/-- Rejection test of the greedy dedup loop against the kept list. -/
def dropAgainst (kept : List Hint) (e : Hint) : Bool :=
  kept.any fun k => iouGtQ e.bbox k.bbox 3 5 || centersClose e.bbox k.bbox

/-- Accumulating keep-loop shared by the greedy dedup of the ranker and the
duplicate pruning of the reconciler: append e unless cond rejects it. -/
def keepUnless (cond : List α → α → Bool) (l : List α) : List α :=
  l.foldl (fun kept e => if cond kept e then kept else kept ++ [e]) []

/-- Greedy dedup pass of annotator._rank_and_limit_hints. -/
def greedyKeep (elems : List Hint) : List Hint := keepUnless dropAgainst elems

/-- Reading order of the final sort: centre y, then centre x. -/
def readingLt (a b : Hint) : Bool :=
  decide ((centerOf a.bbox).2 < (centerOf b.bbox).2) ||
    (decide ((centerOf a.bbox).2 = (centerOf b.bbox).2) &&
      decide ((centerOf a.bbox).1 < (centerOf b.bbox).1))

/-- Mirrors enumerate(ranked, start=i): ids assigned in list order. -/
def assignIds : Nat → List Hint → List Hint
  | _, [] => []
  | i, h :: t => { h with id := some (i : Int) } :: assignIds (i + 1) t

/-- Mirrors annotator._rank_and_limit_hints: sort by (-confidence, area), greedy
dedup, truncate to the limit when positive, re-sort by reading order, assign
ids from 1. -/
def rankAndLimitHints (elems : List Hint) (limit : Int) : List Hint :=
  if elems.isEmpty then []
  else
    assignIds 1 (sortStable readingLt
      (if 0 < limit then (greedyKeep (sortStable confAreaLt elems)).take limit.toNat
       else greedyKeep (sortStable confAreaLt elems)))

/-- Element claimed by the model output; only the fields the reconciler reads
are modelled (the free-text fields are carried through verbatim by the source
and are irrelevant to the geometric claims). -/
structure ModelElem where
  sourceId : Option Int := none
  bbox : Option (List Int) := none
deriving DecidableEq

/-- Top-level model output. -/
structure ModelOut where
  element : List ModelElem := []
deriving DecidableEq

/-- Reconciled output element, restricted to its geometric fields. -/
structure OutElem where
  bbox : Box
  point : Int × Int
  sourceId : Int
deriving DecidableEq

/-- Persisted annotation structure. -/
structure Annot where
  imgSize : Int × Int
  element : List OutElem
deriving DecidableEq

/-- Parses a JSON bbox claim: usable only when it is a list of exactly four
values, as tested by _match_best_hint_id. -/
def boxOfList : List Int → Option Box
  | [a, b, c, d] => some ⟨a, b, c, d⟩
  | _ => none

/-- Mirrors annotator._match_best_hint_id: a malformed bbox claim falls back to
the id of the first hint (None when the list is empty); otherwise the hint of
maximum iou wins, earlier hints winning ties, with id defaulting to 0. -/
def matchBestHintId (bb : Option (List Int)) (hints : List Hint) : Option Int :=
  match bb.bind boxOfList with
  | none => hints.head?.bind fun h => h.id
  | some box =>
    (hints.foldl
      (fun acc h =>
        let iou := iouPair box h.bbox
        match acc with
        | none => some (iou, h.id.getD 0)
        | some best => if iouPairGt iou best.1 then some (iou, h.id.getD 0) else some best)
      none).map (·.2)

/-- Key of a hint in the id-to-hint dictionary of _snap_to_hint_boxes:
the explicit id, defaulting to position + 1. -/
def hintKey (i : Nat) (h : Hint) : Int := h.id.getD ((i : Int) + 1)

/-- Dictionary lookup mirroring the comprehension in _snap_to_hint_boxes; a
later hint with the same key overwrites an earlier one. -/
def id2hintGo : Nat → List Hint → Int → Option Hint
  | _, [], _ => none
  | i, h :: t, k =>
    match id2hintGo (i + 1) t k with
    | some r => some r
    | none => if hintKey i h == k then some h else none

def id2hint (hints : List Hint) (k : Int) : Option Hint := id2hintGo 0 hints k

/-- Resolved source id of one claimed element: the claimed source_id, else the
best-iou match. -/
def resolveSid (hints : List Hint) (el : ModelElem) : Option Int :=
  match el.sourceId with
  | some s => some s
  | none => matchBestHintId el.bbox hints

/-- Canonical output element for a resolved claim: the referenced hint's bbox,
and its point (defaulting to the clamped centre) re-clamped one pixel inside
the bbox, exactly as in _snap_to_hint_boxes. -/
def snapOut (sid : Int) (h : Hint) : OutElem :=
  let b := h.bbox
  let c := h.point.getD (centerOf b)
  { bbox := b
    point := (clamp c.1 (b.x1 + 1) (b.x2 - 1), clamp c.2 (b.y1 + 1) (b.y2 - 1))
    sourceId := sid }

/-- One iteration of the element loop of _snap_to_hint_boxes over the state
(consumed ids, accepted elements). -/
def snapStep (hints : List Hint) (st : List Int × List OutElem) (el : ModelElem) :
    List Int × List OutElem :=
  match resolveSid hints el with
  | none => st
  | some sid =>
    match id2hint hints sid with
    | none => st
    | some h => if sid ∈ st.1 then st else (sid :: st.1, st.2 ++ [snapOut sid h])

/-- Element loop of _snap_to_hint_boxes (binding, unknown-id and duplicate-id
discarding), before the final duplicate pruning pass. -/
def snapElements (out : ModelOut) (hints : List Hint) : List OutElem :=
  (out.element.foldl (snapStep hints) ([], [])).2

/-- Final duplicate pruning of _snap_to_hint_boxes: drop a later element whose
bbox has iou > 0.5 with an earlier kept one. -/
def pruneDups (els : List OutElem) : List OutElem :=
  keepUnless (fun pruned e => pruned.any fun k => iouGtQ e.bbox k.bbox 1 2) els

/-- Mirrors annotator._snap_to_hint_boxes. -/
def snapToHintBoxes (out : ModelOut) (hints : List Hint) (width height : Int) : Annot :=
  { imgSize := (width, height), element := pruneDups (snapElements out hints) }

/-- Strict interiority of a point in a box. -/
def interiorPt (p : Int × Int) (b : Box) : Prop :=
  b.x1 < p.1 ∧ p.1 < b.x2 ∧ b.y1 < p.2 ∧ p.2 < b.y2

instance (p : Int × Int) (b : Box) : Decidable (interiorPt p b) := by
  unfold interiorPt; infer_instance

/-- Pipeline id discipline: hints carry ids position + 1, as produced by
_rank_and_limit_hints. -/
def idsCanonicalFrom : Nat → List Hint → Bool
  | _, [] => true
  | i, h :: t => (h.id == some ((i : Int) + 1)) && idsCanonicalFrom (i + 1) t

/-- Crop configuration of the sampler (the ANNOTATOR_* settings). -/
structure CropCfg where
  maxShards : Int := 15
  shardTopk : Int := 6
  dualCropTopk : Int := 8
  padPx : Int := 8
  textPadPx : Int := 48
  cropLongSide : Int := 160
deriving DecidableEq

inductive CropKind
  | tight
  | padded
  | dirLeft
  | dirRight
deriving DecidableEq

/-- One emitted crop: the hint id of its marker tag, its kind, and the crop
rectangle handed to img.crop (the pixel content and downscaling are not
modelled). -/
structure CropTag where
  sid : Int
  kind : CropKind
  box : Box
deriving DecidableEq

/-- Mirrors annotator._is_row_like; the float test w/h >= 1.8 is the exact
integer test 5*w >= 9*h.  The image size arguments are unused, as in the
source. -/
def isRowLike (b : Box) (W H : Int) : Bool :=
  let w := max 1 (b.x2 - b.x1)
  let h := max 1 (b.y2 - b.y1)
  decide (5 * w ≥ 9 * h) && (decide (18 ≤ h) && decide (h ≤ 120))

/-- Squared centre distance between two boxes. -/
def centerDistSq (a b : Box) : Int :=
  ((centerOf a).1 - (centerOf b).1) * ((centerOf a).1 - (centerOf b).1) +
    ((centerOf a).2 - (centerOf b).2) * ((centerOf a).2 - (centerOf b).2)

/-- Sentinel 1e9 of _min_neighbor_distance. -/
def bigDist : Frac := ⟨1000000000, 1⟩

/-- Mirrors annotator._min_neighbor_distance; the float square root of the
integer squared distance is the explicit parameter sqrtF. -/
def minNeighborDist (sqrtF : Int → Frac) (hints : List Hint) (i : Nat) : Frac :=
  match hints[i]? with
  | none => bigDist
  | some hi =>
    let best := hints.enum.foldl
      (fun best p =>
        if p.1 = i then best
        else
          let d := sqrtF (centerDistSq hi.bbox p.2.bbox)
          if Frac.blt d best then d else best)
      bigDist
    if Frac.blt best bigDist then best else bigDist

/-- Indices 0..n-1 stably sorted by confidence descending (idx_by_conf). -/
def idxByConf (hints : List Hint) : List Nat :=
  sortStable (fun i j => Frac.blt (confOf (hintAt hints j)) (confOf (hintAt hints i)))
    (List.range hints.length)

/-- External randomness consumed by the sampler: the t-th rng.random() draw and
the t-th rng.randrange(n) draw.  random.Random(seed) is deterministic, so a
run's draws are a function of the seed alone. -/
structure RNG where
  randomAt : Nat → Frac
  randrangeAt : Nat → Nat → Nat

/-- Cumulative-weight selection of the sampling loop: the first index whose
running weight sum reaches r, defaulting to 0 as in the source. -/
def cumIdx : List Frac → Frac → Frac → Nat → Option Nat
  | [], _, _, _ => none
  | w :: t, acc, r, i =>
    if Frac.ble r (Frac.add acc w) then some i else cumIdx t (Frac.add acc w) r (i + 1)

/-- Weighted sampling without replacement of _build_crops: one pick per
iteration, removing the pick and its weight from the pool. -/
def sampleGo (rng : RNG) : Nat → List (Nat × Frac) → Frac → Nat → List Nat
  | _, _, _, 0 => []
  | _, [], _, _ => []
  | t, p :: ps, totalW, q + 1 =>
    let pool := p :: ps
    let j :=
      if Frac.ble totalW ⟨0, 1⟩ then rng.randrangeAt t pool.length % pool.length
      else (cumIdx (pool.map (·.2)) ⟨0, 1⟩ (Frac.mul (rng.randomAt t) totalW) 0).getD 0
    let pick := (pool.drop j).headD (0, ⟨0, 1⟩)
    pick.1 :: sampleGo rng (t + 1) (pool.take j ++ pool.drop (j + 1)) (Frac.sub totalW pick.2) q

/-- Ambiguity weight of one remaining hint, from the min-max normalised inverse
nearest-neighbour distance. -/
def ambOf (sqrtF : Int → Frac) (hints : List Hint) (dMin dMax : Frac) (i : Nat) : Frac :=
  if Frac.blt dMin dMax then
    Frac.sub ⟨1, 1⟩ (Frac.div (Frac.sub (minNeighborDist sqrtF hints i) dMin) (Frac.sub dMax dMin))
  else ⟨0, 1⟩

/-- Sampling weight 0.8*confidence + 0.7*ambiguity + 0.1, floored at 0.01. -/
def weightOf (sqrtF : Int → Frac) (hints : List Hint) (dMin dMax : Frac) (i : Nat) : Frac :=
  Frac.fmax
    (Frac.add (Frac.add (Frac.mul ⟨8, 10⟩ (confOf (hintAt hints i))) (Frac.mul ⟨7, 10⟩ (ambOf sqrtF hints dMin dMax i))) ⟨1, 10⟩)
    ⟨1, 100⟩

/-- Deterministic head of the sampler: the top shard_topk hint indices by
confidence. -/
def headIdx (hints : List Hint) (cfg : CropCfg) : List Nat :=
  (idxByConf hints).take (min (max 0 cfg.shardTopk).toNat hints.length)

/-- Head by confidence plus seeded weighted sample: the keep_idx list of
_build_crops, before truncation to max_shards. -/
def keepIdxList (sqrtF : Int → Frac) (rng : RNG) (hints : List Hint) (cfg : CropCfg) : List Nat :=
  let n := hints.length
  let maxShards := (max 0 cfg.maxShards).toNat
  let head := headIdx hints cfg
  let remaining := (List.range n).filter fun i => decide (i ∉ head)
  let dVals := ((List.range n).map (minNeighborDist sqrtF hints)).filter fun d => Frac.blt d bigDist
  let dMin := match dVals with | [] => ⟨0, 1⟩ | v :: t => t.foldl Frac.fmin v
  let dMax := match dVals with | [] => ⟨1, 1⟩ | v :: t => t.foldl Frac.fmax v
  let weights := remaining.map (weightOf sqrtF hints dMin dMax)
  let quota := maxShards - head.length
  if 0 < quota ∧ remaining ≠ [] then
    head ++ sampleGo rng 0 (remaining.zip weights) (weights.foldl Frac.add ⟨0, 1⟩) quota
  else head

/-- Hints eligible for a second crop: the dual_crop_topk entries of keep_idx
with smallest nearest-neighbour distance. -/
def secondCropCandidates (sqrtF : Int → Frac) (rng : RNG) (hints : List Hint) (cfg : CropCfg) :
    List Nat :=
  let keepIdx := keepIdxList sqrtF rng hints cfg
  let dual := (max 0 cfg.dualCropTopk).toNat
  (sortStable
      (fun i j => Frac.blt (minNeighborDist sqrtF hints i) (minNeighborDist sqrtF hints j))
      keepIdx).take
    (min dual keepIdx.length)

/-- Second-crop kind and rectangle for one hint, mirroring the directional
branch of _build_crops: a row-like hint is extended by text_pad toward the
right when its centre is left of the image midline and toward the left
otherwise, with pad above and below and the opposite horizontal edge left
unchanged; other hints get symmetric pad expansion.  All edges are clamped to
the image. -/
def secondCrop (W H pad tpad : Int) (b : Box) : CropKind × Box :=
  if isRowLike b W H then
    if b.x1 + b.x2 < W then
      (CropKind.dirRight, ⟨b.x1, max 0 (b.y1 - pad), min W (b.x2 + tpad), min H (b.y2 + pad)⟩)
    else
      (CropKind.dirLeft, ⟨max 0 (b.x1 - tpad), max 0 (b.y1 - pad), b.x2, min H (b.y2 + pad)⟩)
  else
    (CropKind.padded, ⟨max 0 (b.x1 - pad), max 0 (b.y1 - pad), min W (b.x2 + pad), min H (b.y2 + pad)⟩)

/-- Emission loop of _build_crops over the hint list: every kept hint yields a
tight crop, and a second crop when selected as a second-crop candidate. -/
def cropTagsGo (W H pad tpad : Int) (keep second : List Nat) : Nat → List Hint → List CropTag
  | _, [] => []
  | i, h :: t =>
    (if i ∈ keep then
      ⟨h.id.getD ((i : Int) + 1), CropKind.tight, h.bbox⟩ ::
        (if i ∈ second then
          [⟨h.id.getD ((i : Int) + 1), (secondCrop W H pad tpad h.bbox).1,
            (secondCrop W H pad tpad h.bbox).2⟩]
        else [])
    else []) ++ cropTagsGo W H pad tpad keep second (i + 1) t

/-- Crop selection and tagging of annotator._build_crops for a given rng.  The
PNG bytes, the crop_long_side downscaling and the shard_index_map bookkeeping
are not modelled. -/
def buildCrops (sqrtF : Int → Frac) (rng : RNG) (W H : Int) (hints : List Hint) (cfg : CropCfg) :
    List CropTag :=
  if hints.isEmpty then []
  else
    let maxShards := (max 0 cfg.maxShards).toNat
    let pad := max 0 cfg.padPx
    let tpad := max 0 cfg.textPadPx
    let keepTrunc := (keepIdxList sqrtF rng hints cfg).take maxShards
    let second := secondCropCandidates sqrtF rng hints cfg
    cropTagsGo W H pad tpad keepTrunc second 0 hints

/-- Auto seed of _build_crops: an MD5 digest over the image basename, the
leading image bytes and every hint bbox, reduced mod 2^31 - 1; the digest is
an opaque mixing-function parameter. -/
def autoSeed (digest : String → List Box → Nat) (imageName imageLead : String)
    (hints : List Hint) : Nat :=
  digest (imageName ++ imageLead) (hints.map (·.bbox)) % (2 ^ 31 - 1)

/-- Full sampler entry point: derive the seed (auto unless overridden), build
the generator from it, then sample.  mkRng is the deterministic
random.Random construction. -/
def buildCropsSeeded (digest : String → List Box → Nat) (mkRng : Nat → RNG)
    (sqrtF : Int → Frac) (imageName imageLead : String) (W H : Int) (hints : List Hint)
    (cfg : CropCfg) (seedOverride : Option Nat) : List CropTag :=
  buildCrops sqrtF (mkRng (seedOverride.getD (autoSeed digest imageName imageLead hints))) W H
    hints cfg

/-- Token budgets attempted by _call_openai_api: the configured budget, then
the doubled budget clamped into [2048, 8192]. -/
def attemptBudgets (mct : Int) : List Int := [mct, min (max (mct * 2) 2048) 8192]

/-- Token parameter actually placed in the request by build_chat_kwargs: the
source function ignores its limit argument and always sends
self.max_completion_tokens. -/
def buildChatKwargsTokens (maxCompletionTokens limit : Int) : Int := maxCompletionTokens

/-- Models str(content).strip() == "": every character is whitespace. -/
def blankStr (s : String) : Bool := s.data.all Char.isWhitespace

/-- Outcome of one remote call attempt, as read from the response object. -/
structure AttemptResp where
  requestFailed : Bool := false
  content : Option String := none
  finishReason : Option String := none

/-- Result of _call_openai_api: a reconciled annotation, or one of its raised
errors. -/
inductive CallResult
  | ok (a : Annot)
  | requestError
  | parseError
  | exhausted
deriving DecidableEq

/-- Attempt loop of _call_openai_api (chat path; the code-interpreter transport
differs only in how the text is extracted).  parseJson models json.loads,
returning none on unparseable text, including the None content case.  A blank
content or a parse failure with finish_reason length on the first attempt
continues to the next attempt; any other failure raises. -/
def callLoopGo (parseJson : String → Option ModelOut) (hints : List Hint) (W H : Int)
    (resps : Nat → AttemptResp) : Nat → Nat → CallResult
  | _, 0 => CallResult.exhausted
  | idx, n + 1 =>
    let r := resps idx
    if r.requestFailed then CallResult.requestError
    else
      let blank := match r.content with
        | none => true
        | some s => blankStr s
      if blank && ((r.finishReason == some "length") && (idx == 0)) then
        callLoopGo parseJson hints W H resps (idx + 1) n
      else
        match r.content.bind parseJson with
        | some out => CallResult.ok (snapToHintBoxes out hints W H)
        | none =>
          if (r.finishReason == some "length") && (idx == 0) then
            callLoopGo parseJson hints W H resps (idx + 1) n
          else CallResult.parseError

/-- Mirrors the retry structure of _call_openai_api: one pass over the
attempts list. -/
def callOpenaiApi (parseJson : String → Option ModelOut) (hints : List Hint) (W H : Int)
    (resps : Nat → AttemptResp) (mct : Int) : CallResult :=
  callLoopGo parseJson hints W H resps 0 (attemptBudgets mct).length

/-- Job event tags of the batch manager. -/
inductive EventTag
  | initEv
  | preprocessStart
  | preprocessed
  | requestSent
  | imageDone
  | completeEv
  | endEv
deriving DecidableEq

/-- Per-image outcome recorded by _process_image_task. -/
inductive JobOutcome
  | success
  | skipped
  | errored
deriving DecidableEq

/-- Progress of one worker task: still emitting its unlocked pre-events, done
with its locked counter update, or done emitting its image_done event. -/
inductive TaskPhase
  | emitting (pre : List EventTag)
  | counted
  | done
deriving DecidableEq

structure TaskSt where
  outcome : JobOutcome
  phase : TaskPhase
deriving DecidableEq

/-- Bookkeeping state of one batch job: the counters and status guarded by the
shared lock, the event queue in emission order, and the worker tasks. -/
structure JobState where
  total : Nat
  completed : Nat
  success : Nat
  skipped : Nat
  errors : Nat
  statusComplete : Bool
  endEmitted : Bool
  queue : List EventTag
  tasks : List TaskSt
deriving DecidableEq

/-- Fresh job as create_job builds it: zero counters, running status, one task
per image, each with the unlocked events it will emit before its counter
update. -/
def jobStart (ts : List (JobOutcome × List EventTag)) : JobState :=
  { total := ts.length, completed := 0, success := 0, skipped := 0, errors := 0,
    statusComplete := false, endEmitted := false, queue := [],
    tasks := ts.map fun t => { outcome := t.1, phase := TaskPhase.emitting t.2 } }

/-- Increment of exactly one outcome counter. -/
def bumpOutcome (s : JobState) (o : JobOutcome) : JobState :=
  match o with
  | JobOutcome.success => { s with success := s.success + 1 }
  | JobOutcome.skipped => { s with skipped := s.skipped + 1 }
  | JobOutcome.errored => { s with errors := s.errors + 1 }

/-- Interleaving semantics of the job manager.  A task emits its pre-events
without the lock, then performs its counter update under the lock, then emits
image_done outside the lock (the source emits after releasing the with-lock
block).  The monitor thread, under the lock, flips the status and emits
complete once completed reaches total, and emits the end sentinel; task event
emissions do not take the lock, so they interleave freely with it. -/
inductive JobStep : JobState → JobState → Prop
  | taskPre (s : JobState) (i : Nat) (t : TaskSt) (e : EventTag) (rest : List EventTag)
      (ht : s.tasks[i]? = some t) (hp : t.phase = TaskPhase.emitting (e :: rest)) :
      JobStep s { s with queue := s.queue ++ [e],
                         tasks := s.tasks.set i { t with phase := TaskPhase.emitting rest } }
  | taskCount (s : JobState) (i : Nat) (t : TaskSt)
      (ht : s.tasks[i]? = some t) (hp : t.phase = TaskPhase.emitting []) :
      JobStep s { bumpOutcome s t.outcome with
                    completed := s.completed + 1,
                    tasks := s.tasks.set i { t with phase := TaskPhase.counted } }
  | taskEmit (s : JobState) (i : Nat) (t : TaskSt)
      (ht : s.tasks[i]? = some t) (hp : t.phase = TaskPhase.counted) :
      JobStep s { s with queue := s.queue ++ [EventTag.imageDone],
                         tasks := s.tasks.set i { t with phase := TaskPhase.done } }
  | monitorComplete (s : JobState)
      (hs : s.statusComplete = false) (hc : s.total ≤ s.completed) :
      JobStep s { s with statusComplete := true, queue := s.queue ++ [EventTag.completeEv] }
  | monitorEnd (s : JobState)
      (hs : s.statusComplete = true) (he : s.endEmitted = false) :
      JobStep s { s with endEmitted := true, queue := s.queue ++ [EventTag.endEv] }

/-- Reachability of job states under the interleaving semantics. -/
def JobReach (a b : JobState) : Prop := Relation.ReflTransGen JobStep a b

/-- Tasks that have recorded their outcome under the lock. -/
def countedOrDone (t : TaskSt) : Bool :=
  match t.phase with
  | TaskPhase.emitting _ => false
  | _ => true

/-- Lock-protected invariant of the job bookkeeping, together with the facts
linking the event queue to the status flag. -/
def jobInv (s : JobState) : Prop :=
  s.total = s.tasks.length ∧
  s.completed = s.tasks.countP countedOrDone ∧
  s.success + s.skipped + s.errors = s.completed ∧
  (EventTag.completeEv ∈ s.queue ↔ s.statusComplete = true) ∧
  (s.statusComplete = true → s.tasks.countP countedOrDone = s.tasks.length) ∧
  (∀ t ∈ s.tasks, ∀ l, t.phase = TaskPhase.emitting l → EventTag.completeEv ∉ l)

/-! Concrete fixtures used by the witness and counterexample theorems. -/

/-- Square root parameter instantiated as the identity on squared distances
(any instantiation works for the properties stated about the sampler). -/
def sqrtId : Int → Frac := fun n => ⟨n, 1⟩

/-- Concrete generator draws (never consulted in the fixture runs, whose
remaining pool is empty). -/
def rngZero : RNG := ⟨fun _ => ⟨0, 1⟩, fun _ _ => 0⟩

/-- Opaque digest instantiation for determinism witnesses. -/
def digestZero : String → List Box → Nat := fun _ _ => 0

/-- Generator construction instantiation for determinism witnesses. -/
def mkRngZero : Nat → RNG := fun _ => rngZero

/-- Default ANNOTATOR_* configuration. -/
def cfgBase : CropCfg := {}

/-- Small crop budget: two shards, head of two, two dual crops. -/
def cfgSmall : CropCfg := { maxShards := 2, shardTopk := 2, dualCropTopk := 2 }

def hintA6 : Hint := { bbox := ⟨0, 0, 10, 10⟩, confidence := some ⟨9, 10⟩ }

def hintB6 : Hint := { bbox := ⟨20, 20, 30, 30⟩, confidence := some ⟨8, 10⟩ }

/-- Row-like hint (50 x 20 px) left of the midline of a 200-px-wide image. -/
def hintRow : Hint := { bbox := ⟨10, 20, 60, 40⟩, confidence := some ⟨9, 10⟩ }

/-- Raw detector element carrying a point far outside its bbox. -/
def rawOutside : RawElem :=
  { bbox := some ⟨0, 0, 10, 10⟩, point := some (100, 100), confidence := some ⟨9, 10⟩ }

/-- Raw detector element with an interior point. -/
def rawGood : RawElem :=
  { bbox := some ⟨0, 0, 10, 10⟩, point := some (5, 5), confidence := some ⟨9, 10⟩ }

/-- Canonically numbered hint list as the pipeline produces it. -/
def hintsSnap : List Hint :=
  [{ id := some 1, bbox := ⟨0, 0, 10, 10⟩, point := some (5, 5) },
   { id := some 2, bbox := ⟨20, 20, 30, 30⟩, point := some (25, 25) }]

/-- Claimed element with no source_id and a malformed (3-entry) bbox. -/
def elMalformed : ModelElem := { sourceId := none, bbox := some [1, 2, 3] }

/-- Claimed element referencing hint 2. -/
def elKnown : ModelElem := { sourceId := some 2 }

/-- Unparseable text model of json.loads. -/
def parseNone : String → Option ModelOut := fun _ => none

/-- json.loads model accepting exactly the text good. -/
def parseGood : String → Option ModelOut := fun s => if s = "good" then some ⟨[]⟩ else none

/-- Both attempts come back truncated and unparseable. -/
def truncTwiceResps : Nat → AttemptResp :=
  fun _ => { content := some "not json", finishReason := some "length" }

/-- First attempt unparseable without a truncation signal; a retry would have
succeeded, so the observed hard error shows no retry happens. -/
def stopThenGoodResps : Nat → AttemptResp :=
  fun t =>
    if t = 0 then { content := some "not json", finishReason := some "stop" }
    else { content := some "good", finishReason := some "stop" }

/-- First attempt truncated, second parseable. -/
def recoverResps : Nat → AttemptResp :=
  fun t =>
    if t = 0 then { content := some "not json", finishReason := some "length" }
    else { content := some "good", finishReason := some "stop" }

/-- One-image batch whose task is skipped (annotation already present). -/
def tsSolo : List (JobOutcome × List EventTag) := [(JobOutcome.skipped, [])]

/-- State reached when the skip task's image_done emission is delayed past the
monitor's complete and end emissions. -/
def sLate : JobState :=
  { total := 1, completed := 1, success := 0, skipped := 1, errors := 0,
    statusComplete := true, endEmitted := true,
    queue := [EventTag.completeEv, EventTag.imageDone, EventTag.endEv],
    tasks := [{ outcome := JobOutcome.skipped, phase := TaskPhase.done }] }

/-- State just after the monitor emits complete for the one-image batch. -/
def sMid : JobState :=
  { total := 1, completed := 1, success := 0, skipped := 1, errors := 0,
    statusComplete := true, endEmitted := false,
    queue := [EventTag.completeEv],
    tasks := [{ outcome := JobOutcome.skipped, phase := TaskPhase.counted }] }

/-! General lemmas about the helper combinators. -/

theorem insertStable_perm (lt : α → α → Bool) (a : α) (l : List α) :
    (insertStable lt a l).Perm (a :: l) := by
  induction l with
  | nil => simp [insertStable]
  | cons b t ih =>
    simp only [insertStable]
    by_cases h : lt b a
    · simp only [h, if_true]
      exact (ih.cons b).trans (List.Perm.swap a b t)
    · simp [h]

theorem sortStable_perm (lt : α → α → Bool) (l : List α) : (sortStable lt l).Perm l := by
  induction l with
  | nil => simp [sortStable]
  | cons a t ih =>
    simp only [sortStable, List.foldr] at *
    exact (insertStable_perm lt a _).trans (ih.cons a)

theorem mem_sortStable {lt : α → α → Bool} {l : List α} {x : α} :
    x ∈ sortStable lt l ↔ x ∈ l :=
  (sortStable_perm lt l).mem_iff

theorem keepUnless_go_sublist (cond : List α → α → Bool) :
    ∀ (l acc : List α),
      ∃ s, List.foldl (fun kept e => if cond kept e then kept else kept ++ [e]) acc l = acc ++ s ∧
        s.Sublist l := by
  intro l
  induction l with
  | nil => intro acc; exact ⟨[], by simp, List.Sublist.refl []⟩
  | cons e t ih =>
    intro acc
    simp only [List.foldl]
    by_cases h : cond acc e
    · rw [if_pos h]
      obtain ⟨s, hs, hsub⟩ := ih acc
      exact ⟨s, hs, hsub.cons e⟩
    · rw [if_neg h]
      obtain ⟨s, hs, hsub⟩ := ih (acc ++ [e])
      refine ⟨e :: s, ?_, hsub.cons₂ e⟩
      rw [hs, List.append_assoc]
      rfl

theorem keepUnless_sublist (cond : List α → α → Bool) (l : List α) :
    (keepUnless cond l).Sublist l := by
  obtain ⟨s, hs, hsub⟩ := keepUnless_go_sublist cond l []
  simpa [keepUnless, hs] using hsub

theorem keepUnless_go_pairwise (R : α → α → Prop) (cond : List α → α → Bool)
    (hR : ∀ kept e, cond kept e = false → ∀ k ∈ kept, R k e) :
    ∀ (l acc : List α), List.Pairwise R acc →
      List.Pairwise R (List.foldl (fun kept e => if cond kept e then kept else kept ++ [e]) acc l) := by
  intro l
  induction l with
  | nil => intro acc hacc; exact hacc
  | cons e t ih =>
    intro acc hacc
    simp only [List.foldl]
    by_cases h : cond acc e
    · rw [if_pos h]; exact ih acc hacc
    · rw [if_neg h]
      refine ih (acc ++ [e]) ?_
      rw [List.pairwise_append]
      refine ⟨hacc, List.pairwise_singleton R e, ?_⟩
      intro a ha b hb
      rw [List.mem_singleton] at hb
      rw [hb]
      exact hR acc e (by simpa using h) a ha

theorem keepUnless_pairwise (R : α → α → Prop) (cond : List α → α → Bool)
    (hR : ∀ kept e, cond kept e = false → ∀ k ∈ kept, R k e) (l : List α) :
    List.Pairwise R (keepUnless cond l) :=
  keepUnless_go_pairwise R cond hR l [] (List.Pairwise.nil)

theorem assignIds_mem {e : Hint} :
    ∀ (i : Nat) (l : List Hint), e ∈ assignIds i l →
      ∃ h ∈ l, e.bbox = h.bbox ∧ e.point = h.point ∧ e.confidence = h.confidence := by
  intro i l
  induction l generalizing i with
  | nil => intro he; simp [assignIds] at he
  | cons h t ih =>
    intro he
    simp only [assignIds, List.mem_cons] at he
    rcases he with rfl | he
    · exact ⟨h, List.mem_cons_self h t, rfl, rfl, rfl⟩
    · obtain ⟨h0, hm, hb⟩ := ih (i + 1) he
      exact ⟨h0, List.mem_cons_of_mem h hm, hb⟩

theorem assignIds_pairwise (S : Box → Box → Prop) :
    ∀ (i : Nat) (l : List Hint), List.Pairwise (fun a b => S a.bbox b.bbox) l →
      List.Pairwise (fun a b => S a.bbox b.bbox) (assignIds i l) := by
  intro i l
  induction l generalizing i with
  | nil => intro _; simp [assignIds]
  | cons h t ih =>
    intro hp
    rw [List.pairwise_cons] at hp
    simp only [assignIds]
    rw [List.pairwise_cons]
    refine ⟨?_, ih (i + 1) hp.2⟩
    intro b hb
    obtain ⟨h0, hm, hb1, _⟩ := assignIds_mem (i + 1) t hb
    simpa [hb1] using hp.1 h0 hm

/-! Symmetry of the geometric predicates. -/

theorem interArea_comm (a b : Box) : interArea a b = interArea b a := by
  unfold interArea
  rw [min_comm a.x2 b.x2, max_comm a.x1 b.x1, min_comm a.y2 b.y2, max_comm a.y1 b.y1]

theorem unionArea_comm (a b : Box) : unionArea a b = unionArea b a := by
  unfold unionArea
  rw [interArea_comm]
  ring

theorem iouPair_comm (a b : Box) : iouPair a b = iouPair b a := by
  unfold iouPair
  rw [interArea_comm, unionArea_comm]

theorem iouGtQ_comm (a b : Box) (num den : Int) : iouGtQ a b num den = iouGtQ b a num den := by
  unfold iouGtQ
  rw [iouPair_comm]

theorem centersClose_comm (a b : Box) : centersClose a b = centersClose b a := by
  unfold centersClose
  rw [abs_sub_comm ((centerOf a).1) ((centerOf b).1), abs_sub_comm ((centerOf a).2) ((centerOf b).2)]

/-! Clamp lemmas. -/

theorem clamp_mem_of_le {v lo hi : Int} (h : lo ≤ hi) :
    lo ≤ clamp v lo hi ∧ clamp v lo hi ≤ hi := by
  unfold clamp
  exact ⟨le_max_left lo (min hi v), max_le h (min_le_left hi v)⟩

theorem clamp_eq_self {v lo hi : Int} (h1 : lo ≤ v) (h2 : v ≤ hi) : clamp v lo hi = v := by
  unfold clamp
  rw [min_eq_right h2, max_eq_right h1]

theorem centerOf_interior {b : Box} (hw : 2 ≤ b.x2 - b.x1) (hh : 2 ≤ b.y2 - b.y1) :
    interiorPt (centerOf b) b := by
  have hx := @clamp_mem_of_le ((b.x1 + b.x2).fdiv 2) (b.x1 + 1) (b.x2 - 1) (by omega)
  have hy := @clamp_mem_of_le ((b.y1 + b.y2).fdiv 2) (b.y1 + 1) (b.y2 - 1) (by omega)
  unfold centerOf interiorPt
  constructor
  · omega
  constructor
  · omega
  constructor
  · omega
  · omega

/-! Membership transfer through the ranker and the normaliser. -/

theorem rank_mem_source (elems : List Hint) (limit : Int) (h : Hint)
    (hm : h ∈ rankAndLimitHints elems limit) :
    ∃ e ∈ elems, h.bbox = e.bbox ∧ h.point = e.point := by
  unfold rankAndLimitHints at hm
  by_cases hne : elems.isEmpty
  · rw [if_pos hne] at hm; simp at hm
  · rw [if_neg hne] at hm
    obtain ⟨h0, hm0, hb, hp, _⟩ := assignIds_mem 1 _ hm
    rw [mem_sortStable] at hm0
    have hm1 : h0 ∈ greedyKeep (sortStable confAreaLt elems) := by
      by_cases hl : 0 < limit
      · rw [if_pos hl] at hm0; exact (List.take_sublist _ _).subset hm0
      · rw [if_neg hl] at hm0; exact hm0
    have hm2 : h0 ∈ sortStable confAreaLt elems := (keepUnless_sublist _ _).subset hm1
    rw [mem_sortStable] at hm2
    exact ⟨h0, hm2, hb, hp⟩

theorem normalize_mem {h : Hint} {raw : List RawElem} (hm : h ∈ normalizeOmniElements raw) :
    ∃ e ∈ raw, ∃ bb : Box, e.bbox = some bb ∧ bb.x1 < bb.x2 ∧ bb.y1 < bb.y2 ∧
      h.bbox = bb ∧ h.point = some (e.point.getD (centerOf bb)) := by
  unfold normalizeOmniElements at hm
  rw [List.mem_filterMap] at hm
  obtain ⟨e, he, hf⟩ := hm
  cases hbb : e.bbox with
  | none => rw [hbb] at hf; simp at hf
  | some bb =>
    rw [hbb] at hf
    dsimp only at hf
    by_cases hdeg : bb.x2 ≤ bb.x1 ∨ bb.y2 ≤ bb.y1
    · rw [if_pos hdeg] at hf; simp at hf
    · rw [if_neg hdeg] at hf
      push_neg at hdeg
      injection hf with hf2
      subst hf2
      exact ⟨e, he, bb, hbb, hdeg.1, hdeg.2, rfl, rfl⟩

/-- C4: every pair of hints kept by the ranker has iou at most 0.6 and centres
not both within 4 px on both axes; on the two-candidate scenario (iou 0.64)
only the first candidate survives, with id 1. -/
theorem ranker_kept_pairs_separated :
    (∀ (elems : List Hint) (limit : Int),
        List.Pairwise
          (fun a b => iouGtQ a.bbox b.bbox 3 5 = false ∧ centersClose a.bbox b.bbox = false)
          (rankAndLimitHints elems limit)) ∧
    rankAndLimitHints
        [{ bbox := ⟨0, 0, 10, 10⟩, point := some (5, 5), confidence := some ⟨9, 10⟩ },
         { bbox := ⟨1, 1, 9, 9⟩, point := some (5, 5), confidence := some ⟨1, 2⟩ }] 24 =
      [{ id := some 1, bbox := ⟨0, 0, 10, 10⟩, point := some (5, 5),
         confidence := some ⟨9, 10⟩ }] := by
  constructor
  · intro elems limit
    unfold rankAndLimitHints
    by_cases hne : elems.isEmpty
    · rw [if_pos hne]; exact List.Pairwise.nil
    · rw [if_neg hne]
      apply assignIds_pairwise fun x y => iouGtQ x y 3 5 = false ∧ centersClose x y = false
      have hsym : ∀ {x y : Hint},
          (iouGtQ x.bbox y.bbox 3 5 = false ∧ centersClose x.bbox y.bbox = false) →
          (iouGtQ y.bbox x.bbox 3 5 = false ∧ centersClose y.bbox x.bbox = false) := by
        intro x y hxy
        exact ⟨by rw [iouGtQ_comm]; exact hxy.1, by rw [centersClose_comm]; exact hxy.2⟩
      have hkept : List.Pairwise
          (fun a b : Hint => iouGtQ a.bbox b.bbox 3 5 = false ∧ centersClose a.bbox b.bbox = false)
          (greedyKeep (sortStable confAreaLt elems)) := by
        apply keepUnless_pairwise
        intro kept e hcond k hk
        have hfa : ¬ (iouGtQ e.bbox k.bbox 3 5 || centersClose e.bbox k.bbox) = true := by
          intro hcontra
          have hdrop : dropAgainst kept e = true := by
            unfold dropAgainst
            exact List.any_eq_true.mpr ⟨k, hk, hcontra⟩
          rw [hcond] at hdrop
          exact Bool.false_ne_true hdrop
        rw [Bool.or_eq_true, not_or, Bool.not_eq_true, Bool.not_eq_true] at hfa
        exact hsym ⟨hfa.1, hfa.2⟩
      have hranked : List.Pairwise
          (fun a b : Hint => iouGtQ a.bbox b.bbox 3 5 = false ∧ centersClose a.bbox b.bbox = false)
          (if 0 < limit then (greedyKeep (sortStable confAreaLt elems)).take limit.toNat
           else greedyKeep (sortStable confAreaLt elems)) := by
        by_cases hl : 0 < limit
        · rw [if_pos hl]; exact List.Pairwise.sublist (List.take_sublist _ _) hkept
        · rw [if_neg hl]; exact hkept
      exact ((sortStable_perm readingLt _).pairwise_iff hsym).mpr hranked
  · decide

/-- C5 counterexample: a detector-provided point far outside its bbox is copied
unchanged through normalisation and ranking, so the produced hint's point is
not strictly interior. -/
theorem normalized_point_escapes_bbox :
    rankAndLimitHints (normalizeOmniElements [rawOutside]) 24 =
      [{ id := some 1, bbox := ⟨0, 0, 10, 10⟩, point := some (100, 100),
         confidence := some ⟨9, 10⟩ }] ∧
    ¬ interiorPt (100, 100) ⟨0, 0, 10, 10⟩ := by decide

/-- C5 amended: every hint produced by normalisation plus ranking has a
nondegenerate bbox (x1 < x2 and y1 < y2); its point is strictly interior
provided every raw element either supplies a strictly interior point, or
supplies no point and has a bbox at least 2 px wide and tall (a raw-supplied
point is copied unchanged, and a derived centre of a 1-px-thin box lands on
the edge). -/
theorem normalized_hints_wellformed_amended :
    (∀ (raw : List RawElem) (limit : Int) (h : Hint),
        h ∈ rankAndLimitHints (normalizeOmniElements raw) limit →
        h.bbox.x1 < h.bbox.x2 ∧ h.bbox.y1 < h.bbox.y2) ∧
    (∀ (raw : List RawElem) (limit : Int),
        (∀ e ∈ raw, ∀ bb : Box, e.bbox = some bb →
            (∀ p, e.point = some p → interiorPt p bb) ∧
            (e.point = none → 2 ≤ bb.x2 - bb.x1 ∧ 2 ≤ bb.y2 - bb.y1)) →
        ∀ h ∈ rankAndLimitHints (normalizeOmniElements raw) limit,
          ∃ p, h.point = some p ∧ interiorPt p h.bbox) := by
  constructor
  · intro raw limit h hm
    obtain ⟨e, he, hb, _⟩ := rank_mem_source _ _ _ hm
    obtain ⟨r, _, bb, _, hx, hy, hhb, _⟩ := normalize_mem he
    rw [hb, hhb]
    exact ⟨hx, hy⟩
  · intro raw limit hyp h hm
    obtain ⟨e, he, hb, hp⟩ := rank_mem_source _ _ _ hm
    obtain ⟨r, hr, bb, hrb, _, _, hhb, hhp⟩ := normalize_mem he
    rw [hp, hhp, hb, hhb]
    cases hrp : r.point with
    | some p0 =>
      refine ⟨p0, rfl, ?_⟩
      exact (hyp r hr bb hrb).1 p0 hrp
    | none =>
      refine ⟨centerOf bb, rfl, ?_⟩
      obtain ⟨hw, hh2⟩ := (hyp r hr bb hrb).2 hrp
      exact centerOf_interior hw hh2

/-- C5 witness: the amended theorem evaluated on one concrete raw detection
carrying an interior point. -/
theorem normalized_hints_wellformed_amended_witness :
    ((0 : Int) < 10 ∧ (0 : Int) < 10) ∧
    (∃ p, ({ id := some 1, bbox := ⟨0, 0, 10, 10⟩, point := some (5, 5),
             confidence := some ⟨9, 10⟩ } : Hint).point = some p ∧
       interiorPt p (⟨0, 0, 10, 10⟩ : Box)) := by
  constructor
  · exact normalized_hints_wellformed_amended.1 [rawGood] 24
      { id := some 1, bbox := ⟨0, 0, 10, 10⟩, point := some (5, 5),
        confidence := some ⟨9, 10⟩ } (by decide)
  · refine normalized_hints_wellformed_amended.2 [rawGood] 24 ?_
      { id := some 1, bbox := ⟨0, 0, 10, 10⟩, point := some (5, 5),
        confidence := some ⟨9, 10⟩ } (by decide)
    intro e he bb hbb
    rw [List.mem_singleton] at he
    subst he
    have hbb2 : (⟨0, 0, 10, 10⟩ : Box) = bb := by injection hbb
    subst hbb2
    constructor
    · intro p hp
      have hp2 : ((5 : Int), (5 : Int)) = p := by injection hp
      subst hp2
      decide
    · intro hn
      exact absurd hn (by decide)

/-! Lemmas about the reconciler fold. -/

theorem id2hintGo_mem :
    ∀ (i : Nat) (hints : List Hint) (k : Int) (h : Hint),
      id2hintGo i hints k = some h → h ∈ hints := by
  intro i hints
  induction hints generalizing i with
  | nil => intro k h hh; simp [id2hintGo] at hh
  | cons a t ih =>
    intro k h hh
    simp only [id2hintGo] at hh
    cases hr : id2hintGo (i + 1) t k with
    | some r =>
      rw [hr] at hh
      dsimp only at hh
      injection hh with hh2
      subst hh2
      exact List.mem_cons_of_mem a (ih (i + 1) k r hr)
    | none =>
      rw [hr] at hh
      dsimp only at hh
      by_cases hk : hintKey i a == k
      · rw [if_pos hk] at hh
        injection hh with hh2
        subst hh2
        exact List.mem_cons_self a t
      · rw [if_neg hk] at hh
        exact absurd hh (by simp)

/-- One reconciler iteration either leaves the state unchanged (discard) or
appends the canonical snap of a freshly consumed dictionary hint. -/
theorem snapStep_cases (hints : List Hint) (st : List Int × List OutElem) (el : ModelElem) :
    snapStep hints st el = st ∨
      ∃ sid h0, id2hint hints sid = some h0 ∧ sid ∉ st.1 ∧
        snapStep hints st el = (sid :: st.1, st.2 ++ [snapOut sid h0]) := by
  unfold snapStep
  cases hr : resolveSid hints el with
  | none => exact Or.inl rfl
  | some sid =>
    dsimp only
    cases hh : id2hint hints sid with
    | none => exact Or.inl rfl
    | some h0 =>
      dsimp only
      by_cases hmem : sid ∈ st.1
      · rw [if_pos hmem]; exact Or.inl rfl
      · rw [if_neg hmem]; exact Or.inr ⟨sid, h0, hh, hmem, rfl⟩

/-- Applying one reconciler step that accepts a fresh id. -/
theorem snapStep_app (hints : List Hint) (st : List Int × List OutElem) (el : ModelElem)
    (sid : Int) (h0 : Hint) (hres : resolveSid hints el = some sid)
    (hh : id2hint hints sid = some h0) (hfresh : sid ∉ st.1) :
    snapStep hints st el = (sid :: st.1, st.2 ++ [snapOut sid h0]) := by
  unfold snapStep
  rw [hres]
  dsimp only
  rw [hh]
  dsimp only
  rw [if_neg hfresh]

theorem snapFold_acc_extends (hints : List Hint) :
    ∀ (l : List ModelElem) (st : List Int × List OutElem),
      ∃ s, (List.foldl (snapStep hints) st l).2 = st.2 ++ s := by
  intro l
  induction l with
  | nil => intro st; exact ⟨[], (List.append_nil _).symm⟩
  | cons el t ih =>
    intro st
    simp only [List.foldl]
    rcases snapStep_cases hints st el with hcase | ⟨sid, h0, _, _, hcase⟩
    · rw [hcase]; exact ih st
    · rw [hcase]
      obtain ⟨s1, hs1⟩ := ih (sid :: st.1, st.2 ++ [snapOut sid h0])
      refine ⟨[snapOut sid h0] ++ s1, ?_⟩
      rw [hs1]
      dsimp only
      rw [List.append_assoc]

theorem snapFold_mem_char (hints : List Hint) :
    ∀ (l : List ModelElem) (st : List Int × List OutElem),
      (∀ e ∈ st.2, ∃ sid h, id2hint hints sid = some h ∧ e = snapOut sid h) →
      ∀ e ∈ (List.foldl (snapStep hints) st l).2,
        ∃ sid h, id2hint hints sid = some h ∧ e = snapOut sid h := by
  intro l
  induction l with
  | nil => intro st hst e he; exact hst e he
  | cons el t ih =>
    intro st hst
    simp only [List.foldl]
    apply ih
    intro e he
    rcases snapStep_cases hints st el with hcase | ⟨sid, h0, hh, _, hcase⟩
    · rw [hcase] at he; exact hst e he
    · rw [hcase] at he
      dsimp only at he
      rcases List.mem_append.mp he with h1 | h2
      · exact hst e h1
      · rw [List.mem_singleton] at h2
        subst h2
        exact ⟨sid, h0, hh, rfl⟩

theorem snapFold_ids (hints : List Hint) :
    ∀ (l : List ModelElem) (st : List Int × List OutElem),
      (st.2.map OutElem.sourceId).Nodup → (∀ e ∈ st.2, e.sourceId ∈ st.1) →
      ((List.foldl (snapStep hints) st l).2.map OutElem.sourceId).Nodup ∧
        ∀ e ∈ (List.foldl (snapStep hints) st l).2,
          e.sourceId ∈ (List.foldl (snapStep hints) st l).1 := by
  intro l
  induction l with
  | nil => intro st h1 h2; exact ⟨h1, h2⟩
  | cons el t ih =>
    intro st h1 h2
    simp only [List.foldl]
    rcases snapStep_cases hints st el with hcase | ⟨sid, h0, _, hfresh, hcase⟩
    · rw [hcase]; exact ih st h1 h2
    · rw [hcase]
      refine ih _ ?_ ?_
      · dsimp only
        rw [List.map_append]
        rw [List.nodup_append]
        refine ⟨h1, List.nodup_singleton _, ?_⟩
        intro x hx hx2
        simp only [List.map_singleton, List.mem_singleton] at hx2
        subst hx2
        obtain ⟨e0, he0, hid0⟩ := List.mem_map.mp hx
        exact hfresh (hid0 ▸ h2 e0 he0)
      · intro e he
        dsimp only at he ⊢
        rcases List.mem_append.mp he with hl | hr
        · exact List.mem_cons_of_mem _ (h2 e hl)
        · rw [List.mem_singleton] at hr
          subst hr
          exact List.mem_cons_self _ _

/-- C3: no two elements of a reconciled annotation share a source id, and every
emitted source id resolves in the hint dictionary; a claim whose resolved id is
unknown or already consumed is discarded, never emitted. -/
theorem reconciler_source_ids_unique (out : ModelOut) (hints : List Hint) (W H : Int) :
    ((snapToHintBoxes out hints W H).element.map OutElem.sourceId).Nodup ∧
      ∀ e ∈ (snapToHintBoxes out hints W H).element, (id2hint hints e.sourceId).isSome := by
  have hfold := snapFold_ids hints out.element ([], []) (by simp) (by simp)
  have hchar := snapFold_mem_char hints out.element ([], []) (by intro e he; simp at he)
  have hsub : (pruneDups (snapElements out hints)).Sublist (snapElements out hints) :=
    keepUnless_sublist _ _
  constructor
  · exact List.Nodup.sublist (hsub.map OutElem.sourceId) hfold.1
  · intro e he
    have he2 : e ∈ snapElements out hints := hsub.subset he
    obtain ⟨sid, h0, hh, rfl⟩ := hchar e he2
    rw [show (snapOut sid h0).sourceId = sid from rfl, hh]
    rfl

/-- C1: each element of the reconciled annotation carries the referenced hint's
bbox exactly, and — the hint invariant holding, i.e. every hint point strictly
interior — its point exactly as well; the re-clamp one pixel inside the bbox
performed by the reconciler is the identity there, so the emitted point is
strictly interior. -/
theorem reconciler_snaps_to_hint_geometry (out : ModelOut) (hints : List Hint) (W H : Int)
    (hp : ∀ h ∈ hints, ∃ p, h.point = some p ∧ interiorPt p h.bbox) :
    ∀ e ∈ (snapToHintBoxes out hints W H).element,
      ∃ h, id2hint hints e.sourceId = some h ∧ e.bbox = h.bbox ∧
        h.point = some e.point ∧ interiorPt e.point e.bbox := by
  intro e he
  have hsub : (pruneDups (snapElements out hints)).Sublist (snapElements out hints) :=
    keepUnless_sublist _ _
  have he2 : e ∈ snapElements out hints := hsub.subset he
  obtain ⟨sid, h0, hh, rfl⟩ :=
    snapFold_mem_char hints out.element ([], []) (by intro x hx; simp at hx) e he2
  have hmem : h0 ∈ hints := id2hintGo_mem 0 hints sid h0 hh
  obtain ⟨p, hp0, hint0⟩ := hp h0 hmem
  obtain ⟨hx1, hx2, hy1, hy2⟩ := hint0
  have hpoint : (snapOut sid h0).point = p := by
    unfold snapOut
    rw [hp0]
    dsimp only [Option.getD]
    rw [clamp_eq_self (by omega) (by omega), clamp_eq_self (by omega) (by omega)]
  refine ⟨h0, hh, rfl, ?_, ?_⟩
  · rw [hpoint, hp0]
  · rw [hpoint]
    exact ⟨hx1, hx2, hy1, hy2⟩

/-- C1 witness: the theorem evaluated for a claim referencing hint 2 of a
two-hint canonical list. -/
theorem reconciler_snaps_to_hint_geometry_witness :
    ∃ h, id2hint hintsSnap
        ((⟨⟨20, 20, 30, 30⟩, (25, 25), 2⟩ : OutElem).sourceId) = some h ∧
      (⟨⟨20, 20, 30, 30⟩, (25, 25), 2⟩ : OutElem).bbox = h.bbox ∧
      h.point = some (⟨⟨20, 20, 30, 30⟩, (25, 25), 2⟩ : OutElem).point ∧
      interiorPt (⟨⟨20, 20, 30, 30⟩, (25, 25), 2⟩ : OutElem).point
        (⟨⟨20, 20, 30, 30⟩, (25, 25), 2⟩ : OutElem).bbox := by
  refine reconciler_snaps_to_hint_geometry ⟨[elKnown]⟩ hintsSnap 100 100 ?_ _ (by decide)
  intro h hm
  rw [hintsSnap] at hm
  rcases List.mem_cons.mp hm with rfl | hm2
  · exact ⟨(5, 5), rfl, by decide⟩
  · rcases List.mem_cons.mp hm2 with rfl | hm3
    · exact ⟨(25, 25), rfl, by decide⟩
    · exact absurd hm3 (List.not_mem_nil h)

/-! Canonical id lookups for the malformed-claim binding. -/

theorem id2hintGo_none_of_canonical :
    ∀ (t : List Hint) (i : Nat) (k : Int), idsCanonicalFrom i t = true → k < (i : Int) + 1 →
      id2hintGo i t k = none := by
  intro t
  induction t with
  | nil => intro i k _ _; rfl
  | cons a s ih =>
    intro i k hc hk
    simp only [idsCanonicalFrom, Bool.and_eq_true] at hc
    simp only [id2hintGo]
    rw [ih (i + 1) k hc.2 (by push_cast; omega)]
    have hid : a.id = some ((i : Int) + 1) := eq_of_beq hc.1
    have hne : hintKey i a ≠ k := by
      unfold hintKey
      rw [hid]
      simp only [Option.getD_some]
      omega
    have hb : (hintKey i a == k) = false := by
      rw [beq_eq_false_iff_ne]
      exact hne
    simp [hb]

theorem id2hint_one_of_canonical (h0 : Hint) (t : List Hint)
    (hc : idsCanonicalFrom 0 (h0 :: t) = true) : id2hint (h0 :: t) 1 = some h0 := by
  simp only [idsCanonicalFrom, Bool.and_eq_true] at hc
  unfold id2hint
  simp only [id2hintGo]
  rw [id2hintGo_none_of_canonical t 1 1 hc.2 (by norm_num)]
  have hid : h0.id = some 1 := by simpa using eq_of_beq hc.1
  have hb : (hintKey 0 h0 == (1 : Int)) = true := by
    unfold hintKey
    rw [hid]
    simp
  simp [hb]

/-- C10: a claimed element with no source_id and a malformed bbox field (absent
or not a list of exactly four values) is not discarded: it resolves to the
first hint (id 1 under the pipeline numbering), and when id 1 was not consumed
by an earlier claim of the same response its canonical snap — the first hint's
geometry — is emitted by the reconciler's element loop. -/
theorem reconciler_binds_malformed_claims (h0 : Hint) (t : List Hint) (out : ModelOut)
    (pre post : List ModelElem) (el : ModelElem)
    (hc : idsCanonicalFrom 0 (h0 :: t) = true)
    (hsplit : out.element = pre ++ el :: post)
    (hsid : el.sourceId = none)
    (hbb : el.bbox.bind boxOfList = none)
    (hfresh : (1 : Int) ∉ (List.foldl (snapStep (h0 :: t)) ([], []) pre).1) :
    resolveSid (h0 :: t) el = some 1 ∧ snapOut 1 h0 ∈ snapElements out (h0 :: t) := by
  have hid0 : h0.id = some 1 := by
    have hc2 := hc
    simp only [idsCanonicalFrom, Bool.and_eq_true] at hc2
    simpa using eq_of_beq hc2.1
  have hres : resolveSid (h0 :: t) el = some 1 := by
    unfold resolveSid
    rw [hsid]
    dsimp only
    unfold matchBestHintId
    rw [hbb]
    dsimp only
    simp [hid0]
  refine ⟨hres, ?_⟩
  unfold snapElements
  rw [hsplit, List.foldl_append]
  simp only [List.foldl]
  have hstep := snapStep_app (h0 :: t) (List.foldl (snapStep (h0 :: t)) ([], []) pre) el 1 h0
    hres (id2hint_one_of_canonical h0 t hc) hfresh
  rw [hstep]
  obtain ⟨s, hs⟩ := snapFold_acc_extends (h0 :: t) post
    (1 :: (List.foldl (snapStep (h0 :: t)) ([], []) pre).1,
     (List.foldl (snapStep (h0 :: t)) ([], []) pre).2 ++ [snapOut 1 h0])
  rw [hs]
  exact List.mem_append.mpr (Or.inl (List.mem_append.mpr (Or.inr (List.mem_singleton_self _))))

/-- C10 witness: a source_id-less claim with a 3-entry bbox against the
canonical two-hint list binds to hint 1 and is emitted. -/
theorem reconciler_binds_malformed_claims_witness :
    resolveSid hintsSnap elMalformed = some 1 ∧
      snapOut 1 { id := some 1, bbox := ⟨0, 0, 10, 10⟩, point := some (5, 5) } ∈
        snapElements ⟨[elMalformed]⟩ hintsSnap :=
  reconciler_binds_malformed_claims
    { id := some 1, bbox := ⟨0, 0, 10, 10⟩, point := some (5, 5) }
    [{ id := some 2, bbox := ⟨20, 20, 30, 30⟩, point := some (25, 25) }]
    ⟨[elMalformed]⟩ [] [] elMalformed (by decide) rfl rfl rfl (by decide)

/-- C2: evaluation of the retry loop at the failing configuration.  The
attempts list computes an enlarged second budget (8192), but build_chat_kwargs
ignores its limit argument, so the single retry is issued with the original
4096-token budget.  The loop hard-errors on an unparseable response, retries
exactly once and only on a first-attempt truncation signal (an unparseable
non-truncated first attempt fails immediately even though a retry would have
parsed), and returns the reconciled annotation when the single retry parses. -/
theorem retry_keeps_token_budget :
    attemptBudgets 4096 = [4096, 8192] ∧
    buildChatKwargsTokens 4096 ((attemptBudgets 4096).getD 1 0) = 4096 ∧
    buildChatKwargsTokens 4096 ((attemptBudgets 4096).getD 1 0) ≠ (attemptBudgets 4096).getD 1 0 ∧
    callOpenaiApi parseNone [] 0 0 truncTwiceResps 4096 = CallResult.parseError ∧
    callOpenaiApi parseGood [] 7 9 stopThenGoodResps 4096 = CallResult.parseError ∧
    callOpenaiApi parseGood [] 7 9 recoverResps 4096 = CallResult.ok ⟨(7, 9), []⟩ := by
  decide

/-- C8: the crop sampler is deterministic: with the auto seed (no explicit
override), equal image name, equal leading bytes, equal hint lists and equal
configuration produce identical crop plans.  Under the embedding the sampler's
entire input is these arguments plus the deterministic digest, generator
construction and square-root functions, so the dependence on nothing else is
visible in the statement itself. -/
theorem crop_sampler_deterministic (digest : String → List Box → Nat) (mkRng : Nat → RNG)
    (sqrtF : Int → Frac) (name1 name2 lead1 lead2 : String) (W1 H1 W2 H2 : Int)
    (hints1 hints2 : List Hint) (cfg1 cfg2 : CropCfg)
    (hn : name1 = name2) (hl : lead1 = lead2) (hW : W1 = W2) (hH : H1 = H2)
    (hh : hints1 = hints2) (hc : cfg1 = cfg2) :
    buildCropsSeeded digest mkRng sqrtF name1 lead1 W1 H1 hints1 cfg1 none =
      buildCropsSeeded digest mkRng sqrtF name2 lead2 W2 H2 hints2 cfg2 none := by
  subst hn
  subst hl
  subst hW
  subst hH
  subst hh
  subst hc
  rfl

/-- C8 witness: two runs with equal inputs on the row hint. -/
theorem crop_sampler_deterministic_witness :
    buildCropsSeeded digestZero mkRngZero sqrtId "img.png" "bytes" 200 100 [hintRow]
        cfgBase none =
      buildCropsSeeded digestZero mkRngZero sqrtId "img.png" "bytes" 200 100 [hintRow]
        cfgBase none :=
  crop_sampler_deterministic digestZero mkRngZero sqrtId "img.png" "img.png" "bytes" "bytes"
    200 100 200 100 [hintRow] [hintRow] cfgBase cfgBase rfl rfl rfl rfl rfl rfl

/-! Characterisation of the emitted crop tags. -/

theorem secondCrop_dirRight_char (W H pad tpad : Int) (b : Box)
    (hk : (secondCrop W H pad tpad b).1 = CropKind.dirRight) :
    isRowLike b W H = true ∧ b.x1 + b.x2 < W ∧
      (secondCrop W H pad tpad b).2 =
        ⟨b.x1, max 0 (b.y1 - pad), min W (b.x2 + tpad), min H (b.y2 + pad)⟩ := by
  unfold secondCrop at hk ⊢
  by_cases h1 : isRowLike b W H
  · rw [if_pos h1] at hk ⊢
    by_cases h2 : b.x1 + b.x2 < W
    · rw [if_pos h2]
      exact ⟨h1, h2, rfl⟩
    · rw [if_neg h2] at hk
      simp at hk
  · rw [if_neg h1] at hk
    simp at hk

theorem secondCrop_dirLeft_char (W H pad tpad : Int) (b : Box)
    (hk : (secondCrop W H pad tpad b).1 = CropKind.dirLeft) :
    isRowLike b W H = true ∧ W ≤ b.x1 + b.x2 ∧
      (secondCrop W H pad tpad b).2 =
        ⟨max 0 (b.x1 - tpad), max 0 (b.y1 - pad), b.x2, min H (b.y2 + pad)⟩ := by
  unfold secondCrop at hk ⊢
  by_cases h1 : isRowLike b W H
  · rw [if_pos h1] at hk ⊢
    by_cases h2 : b.x1 + b.x2 < W
    · rw [if_pos h2] at hk
      simp at hk
    · rw [if_neg h2]
      exact ⟨h1, by omega, rfl⟩
  · rw [if_neg h1] at hk
    simp at hk

theorem cropTagsGo_mem_char (W H pad tpad : Int) (keep second : List Nat) :
    ∀ (t : List Hint) (i : Nat) (tg : CropTag), tg ∈ cropTagsGo W H pad tpad keep second i t →
      ∃ (j : Nat) (h : Hint), t[j]? = some h ∧
        (tg = ⟨h.id.getD ((i : Int) + (j : Int) + 1), CropKind.tight, h.bbox⟩ ∨
         tg = ⟨h.id.getD ((i : Int) + (j : Int) + 1), (secondCrop W H pad tpad h.bbox).1,
               (secondCrop W H pad tpad h.bbox).2⟩) := by
  intro t
  induction t with
  | nil => intro i tg htg; simp [cropTagsGo] at htg
  | cons h0 s ih =>
    intro i tg htg
    simp only [cropTagsGo] at htg
    rcases List.mem_append.mp htg with hl | hr
    · by_cases hk : i ∈ keep
      · rw [if_pos hk] at hl
        rcases List.mem_cons.mp hl with rfl | hl2
        · exact ⟨0, h0, by simp, Or.inl (by norm_num)⟩
        · by_cases hs : i ∈ second
          · rw [if_pos hs] at hl2
            rw [List.mem_singleton] at hl2
            subst hl2
            exact ⟨0, h0, by simp, Or.inr (by norm_num)⟩
          · rw [if_neg hs] at hl2
            exact absurd hl2 (List.not_mem_nil _)
      · rw [if_neg hk] at hl
        exact absurd hl (List.not_mem_nil _)
    · obtain ⟨j, h, hj, hcase⟩ := ih (i + 1) tg hr
      refine ⟨j + 1, h, by simpa using hj, ?_⟩
      have hcast : ((i + 1 : Nat) : Int) + (j : Int) + 1 =
          (i : Int) + ((j + 1 : Nat) : Int) + 1 := by push_cast; ring
      rw [hcast] at hcase
      exact hcase

/-- C9 amended: every directional crop emitted by the sampler belongs to a
row-like hint on the matching side of the image midline; its rectangle extends
the hint bbox by text_pad toward the label side and by pad above and below,
clamped to the image — the opposite horizontal edge is left unchanged (it is
not expanded by pad). -/
theorem directional_second_crops (sqrtF : Int → Frac) (rng : RNG) (W H : Int)
    (hints : List Hint) (cfg : CropCfg) :
    ∀ tg ∈ buildCrops sqrtF rng W H hints cfg,
      (tg.kind = CropKind.dirRight →
        ∃ (j : Nat) (h : Hint), hints[j]? = some h ∧ tg.sid = h.id.getD ((j : Int) + 1) ∧
          isRowLike h.bbox W H = true ∧ h.bbox.x1 + h.bbox.x2 < W ∧
          tg.box = ⟨h.bbox.x1, max 0 (h.bbox.y1 - max 0 cfg.padPx),
                    min W (h.bbox.x2 + max 0 cfg.textPadPx),
                    min H (h.bbox.y2 + max 0 cfg.padPx)⟩) ∧
      (tg.kind = CropKind.dirLeft →
        ∃ (j : Nat) (h : Hint), hints[j]? = some h ∧ tg.sid = h.id.getD ((j : Int) + 1) ∧
          isRowLike h.bbox W H = true ∧ W ≤ h.bbox.x1 + h.bbox.x2 ∧
          tg.box = ⟨max 0 (h.bbox.x1 - max 0 cfg.textPadPx), max 0 (h.bbox.y1 - max 0 cfg.padPx),
                    h.bbox.x2, min H (h.bbox.y2 + max 0 cfg.padPx)⟩) := by
  intro tg htg
  unfold buildCrops at htg
  by_cases hne : hints.isEmpty
  · rw [if_pos hne] at htg
    exact absurd htg (List.not_mem_nil _)
  · rw [if_neg hne] at htg
    dsimp only at htg
    obtain ⟨j, h, hj, hcase⟩ := cropTagsGo_mem_char W H (max 0 cfg.padPx) (max 0 cfg.textPadPx)
      _ _ hints 0 tg htg
    constructor
    · intro hkind
      rcases hcase with rfl | rfl
      · simp at hkind
      · obtain ⟨hrow, hmid, hbox⟩ := secondCrop_dirRight_char W H (max 0 cfg.padPx)
          (max 0 cfg.textPadPx) h.bbox hkind
        refine ⟨j, h, hj, by norm_num, hrow, hmid, hbox⟩
    · intro hkind
      rcases hcase with rfl | rfl
      · simp at hkind
      · obtain ⟨hrow, hmid, hbox⟩ := secondCrop_dirLeft_char W H (max 0 cfg.padPx)
          (max 0 cfg.textPadPx) h.bbox hkind
        refine ⟨j, h, hj, by norm_num, hrow, hmid, hbox⟩

/-- C9 counterexample: for the row-like hint (10,20,60,40) in a 200 x 100 image
with pad 8, the emitted dir-right crop keeps the left edge at x1 = 10, whereas
padding on all remaining sides as claimed would put it at max 0 (10 - 8) = 2. -/
theorem directional_crop_near_side_unpadded :
    buildCrops sqrtId rngZero 200 100 [hintRow] cfgBase =
      [⟨1, CropKind.tight, ⟨10, 20, 60, 40⟩⟩, ⟨1, CropKind.dirRight, ⟨10, 12, 108, 48⟩⟩] ∧
    (⟨10, 12, 108, 48⟩ : Box) ≠ ⟨max 0 (10 - 8), 12, 108, 48⟩ := by
  decide

/-- C9 witness: the amended theorem applied to the dir-right tag emitted for
the concrete row hint. -/
theorem directional_second_crops_witness :
    (⟨1, CropKind.dirRight, ⟨10, 12, 108, 48⟩⟩ : CropTag).kind = CropKind.dirRight ∧
    (∃ (j : Nat) (h : Hint), [hintRow][j]? = some h ∧
      (⟨1, CropKind.dirRight, ⟨10, 12, 108, 48⟩⟩ : CropTag).sid = h.id.getD ((j : Int) + 1) ∧
      isRowLike h.bbox 200 100 = true ∧ h.bbox.x1 + h.bbox.x2 < 200 ∧
      (⟨1, CropKind.dirRight, ⟨10, 12, 108, 48⟩⟩ : CropTag).box =
        ⟨h.bbox.x1, max 0 (h.bbox.y1 - max 0 cfgBase.padPx),
         min 200 (h.bbox.x2 + max 0 cfgBase.textPadPx),
         min 100 (h.bbox.y2 + max 0 cfgBase.padPx)⟩) :=
  ⟨rfl,
   (directional_second_crops sqrtId rngZero 200 100 [hintRow] cfgBase
      ⟨1, CropKind.dirRight, ⟨10, 12, 108, 48⟩⟩ (by decide)).1 rfl⟩

/-! Crop-count accounting. -/

theorem cropTagsGo_length_le (W H pad tpad : Int) (keep second : List Nat) :
    ∀ (t : List Hint) (i : Nat),
      (cropTagsGo W H pad tpad keep second i t).length ≤
        2 * ((List.range' i t.length).countP fun j => decide (j ∈ keep)) := by
  intro t
  induction t with
  | nil => intro i; simp [cropTagsGo]
  | cons h0 s ih =>
    intro i
    simp only [cropTagsGo, List.length_append, List.length_cons, List.range',
      List.countP_cons]
    have hrec := ih (i + 1)
    by_cases hk : i ∈ keep
    · rw [if_pos hk]
      have hblock :
          (({ sid := h0.id.getD ((i : Int) + 1), kind := CropKind.tight,
              box := h0.bbox } : CropTag) ::
            (if i ∈ second then
              [⟨h0.id.getD ((i : Int) + 1), (secondCrop W H pad tpad h0.bbox).1,
                (secondCrop W H pad tpad h0.bbox).2⟩]
            else [])).length ≤ 2 := by
        by_cases hs : i ∈ second
        · rw [if_pos hs]; simp
        · rw [if_neg hs]; simp
      have hcnt : (decide (i ∈ keep)) = true := decide_eq_true hk
      simp only [hcnt, if_true]
      omega
    · rw [if_neg hk]
      have hcnt : (decide (i ∈ keep)) = false := decide_eq_false hk
      simp only [hcnt, if_false]
      simpa using hrec

theorem countP_mem_le_length (s n : Nat) (keep : List Nat) :
    ((List.range' s n).countP fun j => decide (j ∈ keep)) ≤ keep.length := by
  rw [List.countP_eq_length_filter]
  apply List.Subperm.length_le
  apply List.Nodup.subperm
  · exact (List.nodup_range' s n).filter _
  · intro x hx
    rw [List.mem_filter] at hx
    exact of_decide_eq_true hx.2

theorem headIdx_length_le (hints : List Hint) (cfg : CropCfg) :
    (headIdx hints cfg).length ≤ (max 0 cfg.shardTopk).toNat := by
  have hlen : (idxByConf hints).length = hints.length := by
    unfold idxByConf
    rw [(sortStable_perm _ _).length_eq, List.length_range]
  unfold headIdx
  rw [List.length_take, hlen]
  omega

theorem headIdx_lt (hints : List Hint) (cfg : CropCfg) :
    ∀ i ∈ headIdx hints cfg, i < hints.length := by
  intro i hi
  unfold headIdx at hi
  have hm := (List.take_sublist _ _).subset hi
  unfold idxByConf at hm
  rw [mem_sortStable] at hm
  exact List.mem_range.mp hm

theorem headIdx_sub_keepTrunc (sqrtF : Int → Frac) (rng : RNG) (hints : List Hint)
    (cfg : CropCfg) (hbudget : max 0 cfg.shardTopk ≤ max 0 cfg.maxShards) :
    ∀ i ∈ headIdx hints cfg,
      i ∈ (keepIdxList sqrtF rng hints cfg).take (max 0 cfg.maxShards).toNat := by
  intro i hi
  have hlen : (headIdx hints cfg).length ≤ (max 0 cfg.maxShards).toNat := by
    have h1 := headIdx_length_le hints cfg
    have h2 := Int.toNat_le_toNat hbudget
    omega
  unfold keepIdxList
  dsimp only
  split
  · rw [List.take_append_eq_append_take, List.take_of_length_le hlen]
    exact List.mem_append_left _ hi
  · rw [List.take_of_length_le hlen]
    exact hi

theorem cropTagsGo_tight_mem (W H pad tpad : Int) (keep second : List Nat) :
    ∀ (t : List Hint) (i j : Nat) (h : Hint), t[j]? = some h → (i + j) ∈ keep →
      (⟨h.id.getD ((i : Int) + (j : Int) + 1), CropKind.tight, h.bbox⟩ : CropTag) ∈
        cropTagsGo W H pad tpad keep second i t := by
  intro t
  induction t with
  | nil => intro i j h hj _; simp at hj
  | cons h0 s ih =>
    intro i j h hj hk
    simp only [cropTagsGo]
    cases j with
    | zero =>
      have hj2 : h0 = h := by simpa using hj
      subst hj2
      apply List.mem_append_left
      rw [if_pos (by simpa using hk)]
      have hcast : ((i : Int) + ((0 : Nat) : Int) + 1) = (i : Int) + 1 := by norm_num
      rw [hcast]
      exact List.mem_cons_self _ _
    | succ j2 =>
      have hj2 : s[j2]? = some h := by simpa using hj
      have hk2 : (i + 1) + j2 ∈ keep := by
        have harith : i + (j2 + 1) = (i + 1) + j2 := by omega
        rwa [harith] at hk
      have hmem := ih (i + 1) j2 h hj2 hk2
      have hcast : ((i + 1 : Nat) : Int) + (j2 : Int) + 1 =
          (i : Int) + ((j2 + 1 : Nat) : Int) + 1 := by push_cast; ring
      rw [hcast] at hmem
      exact List.mem_append_right _ hmem

/-- C6 amended: the sampler crops at most max_shards distinct hints, each
receiving at most two crops, so at most 2 * max_shards crop images in total
(the tight crops plus up to dual_crop_topk second crops can exceed max_shards
itself); whenever the budget is at least shard_topk every head hint receives a
tight crop; when the budget is below the head size the kept set is the head
truncated to the budget. -/
theorem crop_sampler_budget_amended (sqrtF : Int → Frac) (rng : RNG) (W H : Int)
    (hints : List Hint) (cfg : CropCfg) :
    (buildCrops sqrtF rng W H hints cfg).length ≤ 2 * (max 0 cfg.maxShards).toNat ∧
    (max 0 cfg.shardTopk ≤ max 0 cfg.maxShards →
      ∀ i ∈ headIdx hints cfg, ∃ h, hints[i]? = some h ∧
        (⟨h.id.getD ((i : Int) + 1), CropKind.tight, h.bbox⟩ : CropTag) ∈
          buildCrops sqrtF rng W H hints cfg) ∧
    ((max 0 cfg.maxShards).toNat < (headIdx hints cfg).length →
      (keepIdxList sqrtF rng hints cfg).take (max 0 cfg.maxShards).toNat =
        (headIdx hints cfg).take (max 0 cfg.maxShards).toNat) := by
  refine ⟨?_, ?_, ?_⟩
  · unfold buildCrops
    by_cases hne : hints.isEmpty
    · rw [if_pos hne]; simp
    · rw [if_neg hne]
      dsimp only
      have h1 := cropTagsGo_length_le W H (max 0 cfg.padPx) (max 0 cfg.textPadPx)
        ((keepIdxList sqrtF rng hints cfg).take (max 0 cfg.maxShards).toNat)
        (secondCropCandidates sqrtF rng hints cfg) hints 0
      have h2 := countP_mem_le_length 0 hints.length
        ((keepIdxList sqrtF rng hints cfg).take (max 0 cfg.maxShards).toNat)
      have h3 : ((keepIdxList sqrtF rng hints cfg).take (max 0 cfg.maxShards).toNat).length ≤
          (max 0 cfg.maxShards).toNat := List.length_take_le _ _
      omega
  · intro hbudget i hi
    have hilt : i < hints.length := headIdx_lt hints cfg i hi
    refine ⟨hints[i], List.getElem?_eq_getElem hilt, ?_⟩
    unfold buildCrops
    have hne : hints.isEmpty = false := by
      cases hints with
      | nil => simp at hilt
      | cons a t => rfl
    rw [hne]
    dsimp only
    have hkeep : (0 + i) ∈ (keepIdxList sqrtF rng hints cfg).take (max 0 cfg.maxShards).toNat := by
      simpa using headIdx_sub_keepTrunc sqrtF rng hints cfg hbudget i hi
    have hmem := cropTagsGo_tight_mem W H (max 0 cfg.padPx) (max 0 cfg.textPadPx)
      ((keepIdxList sqrtF rng hints cfg).take (max 0 cfg.maxShards).toNat)
      (secondCropCandidates sqrtF rng hints cfg) hints 0 i hints[i]
      (List.getElem?_eq_getElem hilt) hkeep
    simpa using hmem
  · intro hlt
    unfold keepIdxList
    dsimp only
    have hng : ¬(0 < (max 0 cfg.maxShards).toNat - (headIdx hints cfg).length ∧
        List.filter (fun i => decide (i ∉ headIdx hints cfg)) (List.range hints.length) ≠ []) := by
      intro hcontra
      have hq := hcontra.1
      omega
    rw [if_neg hng]

/-- C6 counterexample: with max_shards = 2 and two kept hints both receiving a
second crop, the sampler emits 4 crop images, exceeding the configured
maximum. -/
theorem crop_count_exceeds_max_shards :
    (buildCrops sqrtId rngZero 100 100 [hintA6, hintB6] cfgSmall).length = 4 ∧
    (max 0 cfgSmall.maxShards).toNat = 2 ∧
    ¬ ((buildCrops sqrtId rngZero 100 100 [hintA6, hintB6] cfgSmall).length ≤
        (max 0 cfgSmall.maxShards).toNat) := by
  decide

/-- C6 witness: with the default configuration (budget 15 at least head 6),
hint index 0 of the two-hint list receives a tight crop. -/
theorem crop_sampler_budget_amended_witness :
    ((0 : Nat) ∈ headIdx [hintA6, hintB6] cfgBase) ∧
    (∃ h, [hintA6, hintB6][(0 : Nat)]? = some h ∧
      (⟨h.id.getD (((0 : Nat) : Int) + 1), CropKind.tight, h.bbox⟩ : CropTag) ∈
        buildCrops sqrtId rngZero 100 100 [hintA6, hintB6] cfgBase) :=
  ⟨by decide,
   (crop_sampler_budget_amended sqrtId rngZero 100 100 [hintA6, hintB6] cfgBase).2.1
     (by decide) 0 (by decide)⟩

/-! Job bookkeeping invariant. -/

theorem bumpOutcome_total (s : JobState) (o : JobOutcome) : (bumpOutcome s o).total = s.total := by
  cases o <;> rfl

theorem bumpOutcome_completed (s : JobState) (o : JobOutcome) :
    (bumpOutcome s o).completed = s.completed := by
  cases o <;> rfl

theorem bumpOutcome_queue (s : JobState) (o : JobOutcome) : (bumpOutcome s o).queue = s.queue := by
  cases o <;> rfl

theorem bumpOutcome_status (s : JobState) (o : JobOutcome) :
    (bumpOutcome s o).statusComplete = s.statusComplete := by
  cases o <;> rfl

theorem bumpOutcome_tasks (s : JobState) (o : JobOutcome) : (bumpOutcome s o).tasks = s.tasks := by
  cases o <;> rfl

theorem bumpOutcome_sum (s : JobState) (o : JobOutcome) :
    (bumpOutcome s o).success + (bumpOutcome s o).skipped + (bumpOutcome s o).errors =
      s.success + s.skipped + s.errors + 1 := by
  cases o <;> (simp [bumpOutcome]; omega)

theorem jobInv_start (ts : List (JobOutcome × List EventTag))
    (hpre : ∀ p ∈ ts, EventTag.completeEv ∉ p.2) : jobInv (jobStart ts) := by
  unfold jobInv jobStart
  dsimp only
  refine ⟨by simp, ?_, rfl, by simp, by simp, ?_⟩
  · symm
    rw [List.countP_eq_zero]
    intro a ha
    obtain ⟨p, _, rfl⟩ := List.mem_map.mp ha
    simp [countedOrDone]
  · intro t ht l hl
    obtain ⟨p, hp, rfl⟩ := List.mem_map.mp ht
    dsimp only at hl
    injection hl with hl2
    subst hl2
    exact hpre p hp

theorem jobInv_step {s1 s2 : JobState} (hstep : JobStep s1 s2) (hinv : jobInv s1) : jobInv s2 := by
  obtain ⟨h_total, h_comp, h_sum, h_cq, h_cc, h_pre⟩ := hinv
  have hcle : s1.tasks.countP countedOrDone ≤ s1.tasks.length :=
    List.countP_le_length countedOrDone
  cases hstep with
  | taskPre i t e rest ht hp =>
    obtain ⟨hlt, hget⟩ := List.getElem?_eq_some.mp ht
    have hmem_t : t ∈ s1.tasks := hget ▸ List.getElem_mem hlt
    have hpe := h_pre t hmem_t (e :: rest) hp
    rw [List.mem_cons, not_or] at hpe
    have h1 : countedOrDone t = false := by simp [countedOrDone, hp]
    have h2 : countedOrDone { t with phase := TaskPhase.emitting rest } = false := rfl
    unfold jobInv
    dsimp only
    refine ⟨?_, ?_, h_sum, ?_, ?_, ?_⟩
    · rw [List.length_set]; exact h_total
    · rw [List.countP_set _ _ _ _ hlt, hget, h1, h2]
      simpa using h_comp
    · rw [List.mem_append, List.mem_singleton]
      constructor
      · rintro (hq | hq)
        · exact h_cq.mp hq
        · exact absurd hq hpe.1
      · intro hst
        exact Or.inl (h_cq.mpr hst)
    · intro hst
      rw [List.countP_set _ _ _ _ hlt, List.length_set, hget, h1, h2]
      simpa using h_cc hst
    · intro t2 ht2 l hl
      rcases List.mem_or_eq_of_mem_set ht2 with hmem | heq
      · exact h_pre t2 hmem l hl
      · subst heq
        dsimp only at hl
        injection hl with hl2
        subst hl2
        exact hpe.2
  | taskCount i t ht hp =>
    obtain ⟨hlt, hget⟩ := List.getElem?_eq_some.mp ht
    have hmem_t : t ∈ s1.tasks := hget ▸ List.getElem_mem hlt
    have h1 : countedOrDone t = false := by simp [countedOrDone, hp]
    have h2 : countedOrDone { t with phase := TaskPhase.counted } = true := rfl
    unfold jobInv
    dsimp only
    refine ⟨?_, ?_, ?_, ?_, ?_, ?_⟩
    · rw [bumpOutcome_total, List.length_set]; exact h_total
    · rw [List.countP_set _ _ _ _ hlt, hget, h1, h2]
      simp only [if_false, if_true, Bool.false_eq_true]
      omega
    · rw [bumpOutcome_sum]
      omega
    · rw [bumpOutcome_queue, bumpOutcome_status]
      exact h_cq
    · intro hst
      rw [bumpOutcome_status] at hst
      have hall := List.countP_eq_length.mp (h_cc hst) t hmem_t
      rw [h1] at hall
      simp at hall
    · intro t2 ht2 l hl
      rcases List.mem_or_eq_of_mem_set ht2 with hmem | heq
      · exact h_pre t2 hmem l hl
      · subst heq
        dsimp only at hl
        simp at hl
  | taskEmit i t ht hp =>
    obtain ⟨hlt, hget⟩ := List.getElem?_eq_some.mp ht
    have h1 : countedOrDone t = true := by simp [countedOrDone, hp]
    have h2 : countedOrDone { t with phase := TaskPhase.done } = true := rfl
    unfold jobInv
    dsimp only
    refine ⟨?_, ?_, h_sum, ?_, ?_, ?_⟩
    · rw [List.length_set]; exact h_total
    · have hpos : 0 < List.countP countedOrDone s1.tasks := by
        rw [List.countP_pos_iff]
        exact ⟨t, hget ▸ List.getElem_mem hlt, h1⟩
      rw [List.countP_set _ _ _ _ hlt, hget, h1, h2]
      simp only [if_true]
      omega
    · rw [List.mem_append, List.mem_singleton]
      constructor
      · rintro (hq | hq)
        · exact h_cq.mp hq
        · exact absurd hq (by decide)
      · intro hst
        exact Or.inl (h_cq.mpr hst)
    · intro hst
      have hcc2 := h_cc hst
      have hpos : 0 < List.countP countedOrDone s1.tasks := by
        rw [List.countP_pos_iff]
        exact ⟨t, hget ▸ List.getElem_mem hlt, h1⟩
      rw [List.countP_set _ _ _ _ hlt, List.length_set, hget, h1, h2]
      simp only [if_true]
      omega
    · intro t2 ht2 l hl
      rcases List.mem_or_eq_of_mem_set ht2 with hmem | heq
      · exact h_pre t2 hmem l hl
      · subst heq
        dsimp only at hl
        simp at hl
  | monitorComplete hs hc =>
    unfold jobInv
    dsimp only
    refine ⟨h_total, h_comp, h_sum, ?_, ?_, h_pre⟩
    · constructor
      · intro _; rfl
      · intro _
        exact List.mem_append_right _ (List.mem_singleton_self _)
    · intro _
      omega
  | monitorEnd hs he =>
    unfold jobInv
    dsimp only
    refine ⟨h_total, h_comp, h_sum, ?_, h_cc, h_pre⟩
    rw [List.mem_append, List.mem_singleton]
    constructor
    · rintro (hq | hq)
      · exact h_cq.mp hq
      · exact absurd hq (by decide)
    · intro hst
      exact Or.inl (h_cq.mpr hst)

theorem jobInv_reach (ts : List (JobOutcome × List EventTag))
    (hpre : ∀ p ∈ ts, EventTag.completeEv ∉ p.2) (s : JobState)
    (hr : JobReach (jobStart ts) s) : jobInv s := by
  induction hr with
  | refl => exact jobInv_start ts hpre
  | tail hab hbc ih => exact jobInv_step hbc ih

/-- C7 amended: from the moment the complete event is in a job's stream, the
counters satisfy completed = total = success + skipped + errors and every task
has already recorded its outcome under the lock; hence any image_done that
follows complete in the stream is only the trailing out-of-lock emission of an
already-counted image (such trailing emissions do occur, see the
counterexample), and no further counter update happens. -/
theorem job_complete_event_counters (ts : List (JobOutcome × List EventTag)) (s : JobState)
    (hpre : ∀ p ∈ ts, EventTag.completeEv ∉ p.2)
    (hr : JobReach (jobStart ts) s) (hc : EventTag.completeEv ∈ s.queue) :
    s.completed = s.total ∧ s.success + s.skipped + s.errors = s.total ∧
      ∀ t ∈ s.tasks, countedOrDone t = true := by
  obtain ⟨h_total, h_comp, h_sum, h_cq, h_cc, _⟩ := jobInv_reach ts hpre s hr
  have hst : s.statusComplete = true := h_cq.mp hc
  have hcnt := h_cc hst
  refine ⟨by omega, by omega, ?_⟩
  exact List.countP_eq_length.mp hcnt

/-- C7 counterexample: a reachable interleaving of the one-image skip job in
which the task's image_done emission — performed outside the lock — is delayed
past the monitor's complete emission and lands before the end sentinel, so the
delivered stream contains an image_done after complete. -/
theorem image_done_after_complete_trace :
    JobReach (jobStart tsSolo) sLate ∧
    sLate.queue = [EventTag.completeEv, EventTag.imageDone, EventTag.endEv] := by
  constructor
  · exact Relation.ReflTransGen.head
      (JobStep.taskCount (jobStart tsSolo) 0 ⟨JobOutcome.skipped, TaskPhase.emitting []⟩ rfl rfl)
      (Relation.ReflTransGen.head
        (JobStep.monitorComplete _ rfl (by decide))
        (Relation.ReflTransGen.head
          (JobStep.taskEmit _ 0 ⟨JobOutcome.skipped, TaskPhase.counted⟩ rfl rfl)
          (Relation.ReflTransGen.head
            (JobStep.monitorEnd _ rfl rfl)
            Relation.ReflTransGen.refl)))
  · rfl

/-- C7 witness: the amended theorem applied to the one-image job just after the
monitor emits complete. -/
theorem job_complete_event_counters_witness :
    sMid.completed = sMid.total ∧ sMid.success + sMid.skipped + sMid.errors = sMid.total ∧
      ∀ t ∈ sMid.tasks, countedOrDone t = true := by
  refine job_complete_event_counters tsSolo sMid (by decide) ?_ (by decide)
  exact Relation.ReflTransGen.head
    (JobStep.taskCount (jobStart tsSolo) 0 ⟨JobOutcome.skipped, TaskPhase.emitting []⟩ rfl rfl)
    (Relation.ReflTransGen.head
      (JobStep.monitorComplete _ rfl (by decide))
      Relation.ReflTransGen.refl)

end AccuAnnotate
